import Mathlib

/-!
Shallow embedding of `src/happler/tree/tree_builder.py` (class `TreeBuilder`).

The builder orchestrates recursive growth of a haplotype tree: at each
node/allele pair it transforms the accumulated haplotype into a matrix of
candidate columns, runs an association test on every candidate, selects the
best candidate, consults the Bonferroni termination rule, and either stops the
branch or appends a node and recurses.

Machine reals (numpy floats / p-values) are embedded as rationals `ℚ`; the
claims under study only concern order comparisons, selection and control flow,
which are exact in either field.  The collaborating classes `HapTree`,
`Haplotype`, `Variant` and the association-test engine live outside `src/`
(only `tree_builder.py` is available), so their small surfaces are modelled
from the spec where noted; `tree_builder.py` itself is embedded line by line.

A ghost trace of `Event`s instruments the build: one `Event.assoc` per
invocation of the association-test engine, one `Event.checkT` per invocation
of `check_terminate_branch`, and one `Event.addNode` per `HapTree.add_node` call,
so that claims about "no test is invoked" and "the same sequence of add_node
calls" are statable.
-/

/-- A genetic variant.  The Python `Variant` record also carries an id and a
genomic position, but the tree builder only ever consumes the index `idx`
into the genotype matrix's variant axis. -/
structure Variant where
  idx : Nat
deriving DecidableEq

/-- Modelled from the spec: `Haplotype` (file `haplotypes.py` is not under
`src/`): an ordered sequence of (variant index, allele) constraints, built
incrementally by pure appends (§3 of the spec).  The per-sample dosage vector
it also carries never influences the builder's control flow and is omitted. -/
structure Haplotype where
  nodes : List (Nat × Nat)
deriving DecidableEq

/-- The genotype-matrix indices of the variants already included in the
haplotype, in insertion order (`parent.node_indices` in the source). -/
def Haplotype.node_indices (h : Haplotype) : List Nat :=
  h.nodes.map Prod.fst

/-- Modelled from the spec: `Haplotype.from_node` creates a singleton
haplotype from one (variant, allele) pair. -/
def Haplotype.from_node (v : Variant) (allele : Nat) : Haplotype :=
  ⟨[(v.idx, allele)]⟩

/-- Modelled from the spec: `Haplotype.append` is a pure, non-destructive
append of one (variant, allele) constraint (§3: "appending a (variant, allele)
pair to an existing haplotype produces a new haplotype containing all prior
constraints plus the new one"). -/
def Haplotype.append (h : Haplotype) (v : Variant) (allele : Nat) : Haplotype :=
  ⟨h.nodes ++ [(v.idx, allele)]⟩

/-- Modelled from the spec: the number of candidate columns produced by
`Haplotype.transform` (§4.2: "one column per variant not already constrained
by the haplotype") out of `nv` total variants.  This is
`hap_matrix.shape[1]` in `_find_split`. -/
def numCandidates (nv : Nat) (idxs : List Nat) : Nat :=
  ((List.range nv).filter (fun i => decide (i ∉ idxs))).length

/-- One node of the tree arena: either the root (no incoming allele/result) or
a child recording its variant index, parent arena index, incoming allele, and
the association-test result (p-value) that justified adding it. -/
inductive TNode where
  | root (variant : Nat)
  | child (variant : Nat) (parent : Nat) (allele : Nat) (result : Option ℚ)
deriving DecidableEq

/-- The incoming (parent index, allele) edge of a node, `none` for the root. -/
def TNode.parentAllele : TNode → Option (Nat × Nat)
  | .root _ => none
  | .child _ p a _ => some (p, a)

/-- Modelled from the spec: the `HapTree` arena (file `tree.py` is not under
`src/`): a flat ordered sequence of nodes referenced by integer index, the
root at index 0 (§3, §4.4). -/
structure HapTree where
  nodes : List TNode
deriving DecidableEq

/-- Modelled from the spec: `HapTree.add_node(variant, parent_idx, allele,
result)` appends one child node to the arena and returns its stable index
(§4.4).  The builder only ever calls it with an in-range parent index. -/
def HapTree.add_node (t : HapTree) (v : Variant) (parent_idx : Nat) (allele : Nat)
    (result : Option ℚ) : HapTree × Nat :=
  (⟨t.nodes ++ [TNode.child v.idx parent_idx allele result]⟩, t.nodes.length)

/-- The list of incoming (parent index, allele) edges of the non-root nodes,
in arena order. -/
def HapTree.edges (t : HapTree) : List (Nat × Nat) :=
  t.nodes.filterMap TNode.parentAllele

/-- The check `nodesOk i ns` holds when each node of `ns`, placed at arena indices
`i, i+1, ...`, has its parent index strictly below its own index. -/
def nodesOk : Nat → List TNode → Bool
  | _, [] => true
  | i, n :: rest =>
    (match n.parentAllele with
     | none => true
     | some (p, _) => decide (p < i)) && nodesOk (i + 1) rest

/-- Every non-root node of the arena has a parent index strictly less than
its own index. -/
def HapTree.parentsOk (t : HapTree) : Bool :=
  nodesOk 0 t.nodes

/-- Ghost instrumentation of the build: engine invocations, termination
checks, and `add_node` calls, in execution order. -/
inductive Event where
  | assoc (hap : List (Nat × Nat)) (ncols : Nat)
  | checkT (num : Nat)
  | addNode (variant : Nat) (parentIdx : Nat) (allele : Nat)
deriving DecidableEq

/-- The `TreeBuilder` state.  `engine` models the composition
`method.run(parent.transform(gens).sum(axis=2), phens.data).data["pval"]` for
the builder's fixed genotypes and phenotypes: given the accumulated haplotype
it either fails (statistical-engine failure, a raised exception in Python) or
yields the p-value of each compacted candidate column.  `pval_thresh` models
`method.pval_thresh`.  `tree` models the `self.tree` attribute (`None` until
`run` is invoked). -/
structure TreeBuilder where
  numVariants : Nat
  engine : Haplotype → Except String (Nat → ℚ)
  pval_thresh : ℚ
  tree : Option HapTree

/-- Equality of `Except` values is decidable whenever it is on both
components; used to evaluate the embedding on concrete inputs. -/
instance {ε α : Type} [DecidableEq ε] [DecidableEq α] :
    DecidableEq (Except ε α) := fun x y =>
  match x, y with
  | .error a, .error b =>
    if h : a = b then .isTrue (by rw [h])
    else .isFalse (by intro hc; injection hc; exact h ‹_›)
  | .error _, .ok _ => .isFalse (by intro hc; exact Except.noConfusion hc)
  | .ok _, .error _ => .isFalse (by intro hc; exact Except.noConfusion hc)
  | .ok a, .ok b =>
    if h : a = b then .isTrue (by rw [h])
    else .isFalse (by intro hc; injection hc; exact h ‹_›)

/-- Embeds `check_terminate_branch` (lines 144-163): Bonferroni correction — the
branch is terminated when `pval >= self.method.pval_thresh / num_tests`. -/
def TreeBuilder.check_terminate_branch (tb : TreeBuilder) (pval : ℚ)
    (num_tests : Nat) : Bool :=
  decide (tb.pval_thresh / (num_tests : ℚ) ≤ pval)

/-- Embeds `numpy.argmin`: the index of the first occurrence of the minimum value of
the list (0 on the empty list, where numpy would raise). -/
def argmin : List ℚ → Nat
  | [] => 0
  | x :: xs =>
    if xs = [] then 0
    else if xs.getD (argmin xs) 0 < x then argmin xs + 1 else 0

/-- The compacted-to-true index translation loop of `_find_split`
(lines 136-140): walk the already-included genotype indices in ascending
order; stop at the first one exceeding the running position, and otherwise
advance the running position by one. -/
def translateIdx : List Nat → Nat → Nat
  | [], i => i
  | g :: rest, i => if g > i then i else translateIdx rest (i + 1)

/-- The p-value array produced by the association test in `_find_split`
step 2: one p-value per compacted candidate column. -/
def p_values (tb : TreeBuilder) (hap : Haplotype) (f : Nat → ℚ) : List ℚ :=
  (List.range (numCandidates tb.numVariants hap.node_indices)).map f

/-- Embeds `_find_split` (lines 96-142): transform the haplotype, return early when
no candidate columns remain, otherwise run the association tests, select the
minimum p-value, check branch termination, and translate the winning
compacted index back to the genotype-matrix index.  A failure of the
association engine propagates as an error. -/
def TreeBuilder.find_split (tb : TreeBuilder) (parent : Haplotype) :
    Except String ((Option Variant × Option ℚ) × List Event) :=
  let ncols := numCandidates tb.numVariants parent.node_indices
  if ncols = 0 then
    .ok ((none, none), [])
  else
    match tb.engine parent with
    | .error e => .error e
    | .ok f =>
      let pvals := p_values tb parent f
      let best_p_idx := argmin pvals
      let best := pvals.getD best_p_idx 0
      let evs := [Event.assoc parent.nodes ncols, Event.checkT pvals.length]
      if tb.check_terminate_branch best pvals.length then
        .ok ((none, some best), evs)
      else
        let true_idx := translateIdx (List.insertionSort (· ≤ ·) parent.node_indices)
          best_p_idx
        .ok ((some ⟨true_idx⟩, some best), evs)

/-- The haplotype extension at the head of each loop iteration of
`_create_tree` (lines 81-87): start a fresh haplotype at the first level,
append the parent (with the current allele) otherwise. -/
def hapExtend (parentHap : Option Haplotype) (parent : Variant) (allele : Nat) :
    Haplotype :=
  match parentHap with
  | none => Haplotype.from_node parent allele
  | some h => h.append parent allele

/-- Outcome of (a fragment of) the recursive build: `none` when the fuel of
the embedding is exhausted (shown unreachable from `run`), an `error`
carrying the propagating engine message together with the tree as mutated so
far, or the final tree with the ghost event trace. -/
abbrev BuildRes := Option (Except (String × HapTree) (HapTree × List Event))

/-- The body of one iteration of the `for allele in alleles` loop of
`_create_tree` (lines 80-94), parameterised by the recursive call `recurse`:
extend the haplotype, find the best split, and either stop the branch (no
variant), or add the new node and recurse under it. -/
def TreeBuilder.branch (tb : TreeBuilder)
    (recurse : HapTree → Variant → Option Haplotype → Nat → BuildRes)
    (tree : HapTree) (parent : Variant) (parentHap : Option Haplotype)
    (parentIdx : Nat) (allele : Nat) : BuildRes :=
  let new_parent_hap := hapExtend parentHap parent allele
  match tb.find_split new_parent_hap with
  | .error e => some (.error (e, tree))
  | .ok ((none, _), evs) => some (.ok (tree, evs))
  | .ok ((some best_variant, results), evs) =>
    match tree.add_node best_variant parentIdx allele results with
    | (tree', new_node_idx) =>
      match recurse tree' best_variant (some new_parent_hap) new_node_idx with
      | none => none
      | some (.error e) => some (.error e)
      | some (.ok (tree'', evs')) =>
        some (.ok (tree'',
          evs ++ [Event.addNode best_variant.idx parentIdx allele] ++ evs'))

/-- Embeds `_create_tree` (lines 61-94): process allele 0 then allele 1 under the
parent node.  The `fuel` argument is an artefact of the embedding bounding
the recursion depth; `run` supplies enough of it (see the well-foundedness
theorems). -/
def TreeBuilder.create_tree (tb : TreeBuilder) :
    Nat → HapTree → Variant → Option Haplotype → Nat → BuildRes
  | 0, _, _, _, _ => none
  | fuel + 1, tree, parent, parentHap, parentIdx =>
    match tb.branch (tb.create_tree fuel) tree parent parentHap parentIdx 0 with
    | none => none
    | some (.error e) => some (.error e)
    | some (.ok (tree1, ev1)) =>
      match tb.branch (tb.create_tree fuel) tree1 parent parentHap parentIdx 1 with
      | none => none
      | some (.error e) => some (.error e)
      | some (.ok (tree2, ev2)) => some (.ok (tree2, ev1 ++ ev2))

/-- Embeds `run` (lines 40-59) together with its ghost trace: refuse to run twice
(the tree attribute is already set), bounds-check the root variant index
(modelled from the spec's §7 precondition taxonomy; in Python the lookup
`self.gens.variants[root]` raises the error), then set `self.tree` to a fresh
root-only tree and grow it with `_create_tree`.  The first component is the
builder as left behind (its `tree` attribute reflects every `add_node` that
happened before a propagating failure); the second is what the call returns
or raises; the third is the ghost event trace (empty on the failure paths). -/
def TreeBuilder.runFull (tb : TreeBuilder) (root : Nat) :
    (TreeBuilder × Except String HapTree) × List Event :=
  match tb.tree with
  | some _ =>
    ((tb, .error "A tree already exists for this TreeBuilder. Please create a new one."), [])
  | none =>
    if root < tb.numVariants then
      let root_node : Variant := ⟨root⟩
      let tree0 : HapTree := ⟨[TNode.root root]⟩
      match tb.create_tree (tb.numVariants + 1) tree0 root_node none 0 with
      | none => ((tb, .error "recursion fuel exhausted"), [])
      | some (.error (e, t)) => (({tb with tree := some t}, .error e), [])
      | some (.ok (t, evs)) => (({tb with tree := some t}, .ok t), evs)
    else ((tb, .error "IndexError: root variant index out of bounds"), [])

/-- The observable effect of `run`: the builder as left behind and the
returned tree (or the propagated exception). -/
def TreeBuilder.run (tb : TreeBuilder) (root : Nat) :
    TreeBuilder × Except String HapTree :=
  (tb.runFull root).1

/-- The indices constrained by the haplotype that `_create_tree` hands to
`_find_split`: those of `parentHap` followed by the parent's own index
(for either allele). -/
def pendIndices (parentHap : Option Haplotype) (parent : Variant) : List Nat :=
  (match parentHap with
   | none => []
   | some h => h.node_indices) ++ [parent.idx]

/-- A one-variant builder whose engine always reports p-value 1: the root has
no remaining candidates, so `run` yields the root-only tree. -/
def tbSmall : TreeBuilder :=
  { numVariants := 1
    engine := fun _ => .ok (fun _ => 1)
    pval_thresh := 1
    tree := none }

/-- A two-variant builder whose engine always reports p-value 0 with a lax
threshold, so both alleles of the root gain variant 1 as a child. -/
def tbGrow : TreeBuilder :=
  { numVariants := 2
    engine := fun _ => .ok (fun _ => 0)
    pval_thresh := 1
    tree := none }

/-- A two-variant builder whose engine fails (as on a singular design) on the
haplotype of allele 1 of the root, after the allele-0 branch has already
added a node. -/
def tbFail : TreeBuilder :=
  { numVariants := 2
    engine := fun h =>
      if h.nodes = [(0, 1)] then .error "singular design"
      else .ok (fun _ => 0)
    pval_thresh := 1
    tree := none }

/-- A builder on which `run` has already completed: its tree attribute holds
a root-only tree. -/
def tbDone : TreeBuilder :=
  { numVariants := 1
    engine := fun _ => .ok (fun _ => 1)
    pval_thresh := 1
    tree := some ⟨[TNode.root 0]⟩ }

/-- The incoming edges of a bare node list (cf. `HapTree.edges`). -/
def edgesOf (ns : List TNode) : List (Nat × Nat) :=
  ns.filterMap TNode.parentAllele

/-- The tree `tbGrow.run 0` produces: variant 1 as the child of the root
under each allele. -/
def tGrow : HapTree :=
  ⟨[TNode.root 0, TNode.child 1 0 0 (some 0), TNode.child 1 0 1 (some 0)]⟩

/-- The partial tree left on `tbFail` when the engine failure on allele 1
propagates: the root together with the allele-0 child added beforehand. -/
def tFailKept : HapTree :=
  ⟨[TNode.root 0, TNode.child 1 0 0 (some 0)]⟩

/-! ### The index-translation loop -/

theorem translateIdx_ge (S : List Nat) : ∀ i, i ≤ translateIdx S i := by
  induction S with
  | nil => intro i; simp [translateIdx]
  | cons g rest ih =>
    intro i
    simp only [translateIdx]
    split
    · exact Nat.le_refl i
    · exact Nat.le_trans (Nat.le_succ i) (ih (i + 1))

theorem translateIdx_le (S : List Nat) : ∀ i, translateIdx S i ≤ i + S.length := by
  induction S with
  | nil => intro i; simp [translateIdx]
  | cons g rest ih =>
    intro i
    simp only [translateIdx, List.length_cons]
    split
    · omega
    · have := ih (i + 1); omega

theorem translateIdx_not_mem :
    ∀ S : List Nat, List.Sorted (· < ·) S → ∀ i, translateIdx S i ∉ S := by
  intro S
  induction S with
  | nil => intro _ i h; simp at h
  | cons g rest ih =>
    intro hS i
    rw [List.sorted_cons] at hS
    obtain ⟨hg, hrest⟩ := hS
    simp only [translateIdx]
    split
    · rename_i hgi
      intro hmem
      rcases List.mem_cons.mp hmem with h | h
      · omega
      · have := hg _ h; omega
    · rename_i hgi
      intro hmem
      rcases List.mem_cons.mp hmem with h | h
      · have := translateIdx_ge rest (i + 1); omega
      · exact ih hrest (i + 1) h

theorem translateIdx_countP :
    ∀ S : List Nat, List.Sorted (· < ·) S → ∀ i,
      translateIdx S i = i + S.countP (fun s => decide (s < translateIdx S i)) := by
  intro S
  induction S with
  | nil => intro _ i; simp [translateIdx]
  | cons g rest ih =>
    intro hS i
    rw [List.sorted_cons] at hS
    obtain ⟨hg, hrest⟩ := hS
    by_cases hgi : g > i
    · have hv : translateIdx (g :: rest) i = i := by simp [translateIdx, hgi]
      rw [hv]
      have hzero : (g :: rest).countP (fun s => decide (s < i)) = 0 := by
        rw [List.countP_eq_zero]
        intro a ha
        rcases List.mem_cons.mp ha with h | h
        · simp only [decide_eq_true_eq]; omega
        · have := hg _ h; simp only [decide_eq_true_eq]; omega
      omega
    · have hv : translateIdx (g :: rest) i = translateIdx rest (i + 1) := by
        simp [translateIdx, hgi]
      rw [hv]
      have hge : i + 1 ≤ translateIdx rest (i + 1) := translateIdx_ge rest (i + 1)
      have hglt : (decide (g < translateIdx rest (i + 1))) = true := by
        simp only [decide_eq_true_eq]; omega
      have hcount : (g :: rest).countP (fun s => decide (s < translateIdx rest (i + 1)))
          = rest.countP (fun s => decide (s < translateIdx rest (i + 1))) + 1 := by
        rw [List.countP_cons, hglt]
        simp
      have hrec := ih hrest (i + 1)
      omega

/-! ### Counting the candidate columns -/

theorem numCandidates_congr (nv : Nat) (l1 l2 : List Nat)
    (h : ∀ i, i ∈ l1 ↔ i ∈ l2) : numCandidates nv l1 = numCandidates nv l2 := by
  unfold numCandidates
  congr 1
  apply List.filter_congr
  intro x _
  rw [decide_eq_decide]
  exact not_congr (h x)

theorem numCandidates_succ (nv : Nat) (idxs : List Nat) :
    numCandidates (nv + 1) idxs
      = numCandidates nv idxs + (if nv ∈ idxs then 0 else 1) := by
  unfold numCandidates
  rw [List.range_succ, List.filter_append, List.length_append]
  by_cases h : nv ∈ idxs <;> simp [h]

theorem numCandidates_irrel :
    ∀ nv b idxs, nv ≤ b →
      numCandidates nv (b :: idxs) = numCandidates nv idxs := by
  intro nv b idxs hb
  unfold numCandidates
  congr 1
  apply List.filter_congr
  intro x hx
  rw [List.mem_range] at hx
  rw [decide_eq_decide]
  constructor
  · intro h hmem; exact h (List.mem_cons_of_mem _ hmem)
  · intro h hmem
    rcases List.mem_cons.mp hmem with rfl | hmem
    · omega
    · exact h hmem

theorem numCandidates_cons :
    ∀ nv b idxs, b < nv → b ∉ idxs →
      numCandidates nv (b :: idxs) + 1 = numCandidates nv idxs := by
  intro nv
  induction nv with
  | zero => intro b idxs hb; omega
  | succ nv ih =>
    intro b idxs hb hbm
    by_cases hbe : b = nv
    · subst hbe
      have h1 : numCandidates (b + 1) (b :: idxs)
          = numCandidates b (b :: idxs) + 0 := by
        rw [numCandidates_succ]; simp
      have h2 : numCandidates (b + 1) idxs = numCandidates b idxs + 1 := by
        rw [numCandidates_succ, if_neg hbm]
      have h3 : numCandidates b (b :: idxs) = numCandidates b idxs :=
        numCandidates_irrel b b idxs (Nat.le_refl b)
      omega
    · have hblt : b < nv := by omega
      have ih2 := ih b idxs hblt hbm
      have h1 := numCandidates_succ nv (b :: idxs)
      have h2 := numCandidates_succ nv idxs
      have hsame : (nv ∈ b :: idxs) ↔ (nv ∈ idxs) := by
        constructor
        · intro h
          rcases List.mem_cons.mp h with h | h
          · omega
          · exact h
        · exact fun h => List.mem_cons_of_mem _ h
      by_cases hm : nv ∈ idxs
      · rw [if_pos (hsame.mpr hm)] at h1; rw [if_pos hm] at h2; omega
      · rw [if_neg (fun hc => hm (hsame.mp hc))] at h1; rw [if_neg hm] at h2; omega

theorem numCandidates_snoc (nv b : Nat) (idxs : List Nat) (hb : b < nv)
    (hbm : b ∉ idxs) :
    numCandidates nv (idxs ++ [b]) + 1 = numCandidates nv idxs := by
  have h := numCandidates_congr nv (idxs ++ [b]) (b :: idxs) (by
    intro i
    simp [List.mem_append, List.mem_cons]
    tauto)
  rw [h]
  exact numCandidates_cons nv b idxs hb hbm

theorem numCandidates_length :
    ∀ idxs : List Nat, ∀ nv, idxs.Nodup → (∀ i ∈ idxs, i < nv) →
      numCandidates nv idxs + idxs.length = nv := by
  intro idxs
  induction idxs with
  | nil => intro nv _ _; simp [numCandidates]
  | cons a rest ih =>
    intro nv hnd hbd
    rw [List.nodup_cons] at hnd
    have h1 : numCandidates nv (a :: rest) + 1 = numCandidates nv rest :=
      numCandidates_cons nv a rest (hbd a (List.mem_cons_self a rest)) hnd.1
    have h2 := ih nv hnd.2 (fun i hi => hbd i (List.mem_cons_of_mem _ hi))
    simp only [List.length_cons]
    omega

/-! ### The argmin of the p-value array -/

theorem argmin_lt_length : ∀ l : List ℚ, l ≠ [] → argmin l < l.length := by
  intro l
  induction l with
  | nil => intro h; exact absurd rfl h
  | cons x xs ih =>
    intro _
    simp only [argmin, List.length_cons]
    split
    · omega
    · rename_i hxs
      split
      · have := ih hxs; omega
      · omega

theorem argmin_min :
    ∀ l : List ℚ, ∀ j, j < l.length → l.getD (argmin l) 0 ≤ l.getD j 0 := by
  intro l
  induction l with
  | nil => intro j hj; simp at hj
  | cons x xs ih =>
    intro j hj
    simp only [argmin]
    split
    · rename_i hxs
      subst hxs
      simp only [List.length_cons, List.length_nil] at hj
      interval_cases j
      · simp
    · rename_i hxs
      split
      · rename_i hlt
        cases j with
        | zero => simpa using le_of_lt hlt
        | succ k =>
          simp only [List.getD_cons_succ]
          exact ih k (by simpa using hj)
      · rename_i hnlt
        push_neg at hnlt
        cases j with
        | zero => simp
        | succ k =>
          simp only [List.getD_cons_zero, List.getD_cons_succ]
          have hk : k < xs.length := by simpa using hj
          exact le_trans hnlt (ih k hk)

theorem p_values_length (tb : TreeBuilder) (hap : Haplotype) (f : Nat → ℚ) :
    (p_values tb hap f).length = numCandidates tb.numVariants hap.node_indices := by
  simp [p_values]

theorem find_split_zero (tb : TreeBuilder) (hap : Haplotype)
    (h : numCandidates tb.numVariants hap.node_indices = 0) :
    tb.find_split hap = .ok ((none, none), []) := by
  simp [TreeBuilder.find_split, h]

theorem find_split_engine_error (tb : TreeBuilder) (hap : Haplotype) (e : String)
    (h : numCandidates tb.numVariants hap.node_indices ≠ 0)
    (he : tb.engine hap = .error e) :
    tb.find_split hap = .error e := by
  simp [TreeBuilder.find_split, h, he]

theorem find_split_terminate (tb : TreeBuilder) (hap : Haplotype) (f : Nat → ℚ)
    (h : numCandidates tb.numVariants hap.node_indices ≠ 0)
    (hf : tb.engine hap = .ok f)
    (ht : tb.check_terminate_branch
      ((p_values tb hap f).getD (argmin (p_values tb hap f)) 0)
      (p_values tb hap f).length = true) :
    tb.find_split hap
      = .ok ((none, some ((p_values tb hap f).getD (argmin (p_values tb hap f)) 0)),
        [Event.assoc hap.nodes (numCandidates tb.numVariants hap.node_indices),
         Event.checkT (p_values tb hap f).length]) := by
  simp only [List.getD_eq_getElem?_getD] at ht
  simp [TreeBuilder.find_split, h, hf, ht]

theorem find_split_select (tb : TreeBuilder) (hap : Haplotype) (f : Nat → ℚ)
    (h : numCandidates tb.numVariants hap.node_indices ≠ 0)
    (hf : tb.engine hap = .ok f)
    (ht : tb.check_terminate_branch
      ((p_values tb hap f).getD (argmin (p_values tb hap f)) 0)
      (p_values tb hap f).length = false) :
    tb.find_split hap
      = .ok ((some ⟨translateIdx (List.insertionSort (· ≤ ·) hap.node_indices)
            (argmin (p_values tb hap f))⟩,
          some ((p_values tb hap f).getD (argmin (p_values tb hap f)) 0)),
        [Event.assoc hap.nodes (numCandidates tb.numVariants hap.node_indices),
         Event.checkT (p_values tb hap f).length]) := by
  simp only [List.getD_eq_getElem?_getD] at ht
  simp [TreeBuilder.find_split, h, hf, ht]

theorem argmin_first :
    ∀ l : List ℚ, ∀ j, j < argmin l → l.getD j 0 > l.getD (argmin l) 0 := by
  intro l
  induction l with
  | nil => intro j hj; simp [argmin] at hj
  | cons x xs ih =>
    intro j hj
    simp only [argmin] at hj ⊢
    split at hj
    · omega
    · rename_i hxs
      split at hj
      · rename_i hlt
        rw [if_neg hxs, if_pos hlt]
        cases j with
        | zero => simpa using hlt
        | succ k =>
          simp only [List.getD_cons_succ]
          exact ih k (by omega)
      · omega

/-- If `_find_split` selects a variant, that variant's index is in bounds and
is not already part of the haplotype, and at least one candidate column was
present: the workhorse behind the well-foundedness of the recursion. -/
theorem find_split_some (tb : TreeBuilder) (hap : Haplotype) (v : Variant)
    (r : Option ℚ) (evs : List Event)
    (hnd : hap.node_indices.Nodup)
    (hbd : ∀ i ∈ hap.node_indices, i < tb.numVariants)
    (h : tb.find_split hap = .ok ((some v, r), evs)) :
    v.idx < tb.numVariants ∧ v.idx ∉ hap.node_indices ∧
      numCandidates tb.numVariants hap.node_indices ≠ 0 := by
  by_cases hz : numCandidates tb.numVariants hap.node_indices = 0
  · rw [find_split_zero tb hap hz] at h
    simp at h
  · match he : tb.engine hap with
    | .error e =>
      rw [find_split_engine_error tb hap e hz he] at h
      simp at h
    | .ok f =>
      by_cases ht : tb.check_terminate_branch
          ((p_values tb hap f).getD (argmin (p_values tb hap f)) 0)
          (p_values tb hap f).length = true
      · rw [find_split_terminate tb hap f hz he ht] at h
        simp at h
      · rw [Bool.not_eq_true] at ht
        rw [find_split_select tb hap f hz he ht] at h
        obtain ⟨vidx⟩ := v
        simp only [Except.ok.injEq, Prod.mk.injEq, Option.some.injEq,
          Variant.mk.injEq] at h
        obtain ⟨⟨hv, hr⟩, hevs⟩ := h
        subst hv
        have hperm := List.perm_insertionSort (· ≤ ·) hap.node_indices
        have hndS : (List.insertionSort (· ≤ ·) hap.node_indices).Nodup :=
          hperm.nodup_iff.mpr hnd
        have hsorted : List.Sorted (· < ·) (List.insertionSort (· ≤ ·) hap.node_indices) :=
          (List.sorted_insertionSort (· ≤ ·) hap.node_indices).lt_of_le hndS
        have hlen := p_values_length tb hap f
        have hne : p_values tb hap f ≠ [] := by
          intro hc
          rw [hc] at hlen
          simp at hlen
          exact hz hlen.symm
        have hbi : argmin (p_values tb hap f)
            < numCandidates tb.numVariants hap.node_indices :=
          hlen ▸ argmin_lt_length _ hne
        have hSlen := hperm.length_eq
        have hnumlen := numCandidates_length hap.node_indices tb.numVariants hnd hbd
        have hle := translateIdx_le (List.insertionSort (· ≤ ·) hap.node_indices)
          (argmin (p_values tb hap f))
        have hnm := translateIdx_not_mem (List.insertionSort (· ≤ ·) hap.node_indices)
          hsorted (argmin (p_values tb hap f))
        refine ⟨?_, ?_, hz⟩
        · show translateIdx (List.insertionSort (· ≤ ·) hap.node_indices)
            (argmin (p_values tb hap f)) < tb.numVariants
          omega
        · show translateIdx (List.insertionSort (· ≤ ·) hap.node_indices)
            (argmin (p_values tb hap f)) ∉ hap.node_indices
          intro hmem
          exact hnm (hperm.mem_iff.mpr hmem)

/-! ### Claim C2: the default branch-termination policy -/

/-- C2: for every p-value `p` and candidate count `n ≥ 1`,
`check_terminate_branch p n` returns `true` exactly when
`p >= significance_threshold / n` (terminating exactly at boundary
equality), and `false` otherwise. -/
theorem claim_c2_termination_law (tb : TreeBuilder) (p : ℚ) (n : Nat)
    (_hn : 1 ≤ n) :
    tb.check_terminate_branch p n = true ↔ tb.pval_thresh / (n : ℚ) ≤ p := by
  simp [TreeBuilder.check_terminate_branch]

theorem claim_c2_termination_law_witness :
    1 ≤ 2 ∧ (tbSmall.check_terminate_branch (1 / 2) 2 = true
      ↔ tbSmall.pval_thresh / (2 : ℚ) ≤ 1 / 2) :=
  ⟨by decide, claim_c2_termination_law tbSmall (1 / 2) 2 (by decide)⟩

/-! ### Claim C1: translating the compacted index back -/

/-- C1 fails as the spec's literal scenario states it: for a haplotype whose
already-included original variant indices are {2, 5, 7} and a compacted
best-index of 3, the translation loop of `_find_split` yields 4 (the
fourth remaining original index, 0-based), not 6. -/
theorem claim_c1_counterexample :
    translateIdx (List.insertionSort (· ≤ ·)
      (Haplotype.node_indices ⟨[(2, 0), (5, 1), (7, 0)]⟩)) 3 ≠ 6 := by
  decide

/-- C1 (amended): processing the already-included indices in ascending order
and adding one position for every index at or below the running position is
an exact inverse of column compaction: the translated index is outside the
haplotype, in bounds, and equals the compacted index plus the number of
already-included indices below the translated index.  In the spec's literal
scenario (excluded {2, 5, 7} out of 10, compacted index 3) the translated
true index is 4, not 6. -/
theorem claim_c1_translation (idxs : List Nat) (nv i : Nat)
    (hnd : idxs.Nodup) (hbd : ∀ j ∈ idxs, j < nv)
    (hi : i < numCandidates nv idxs) :
    translateIdx (List.insertionSort (· ≤ ·) idxs) i ∉ idxs ∧
    translateIdx (List.insertionSort (· ≤ ·) idxs) i < nv ∧
    translateIdx (List.insertionSort (· ≤ ·) idxs) i
      = i + idxs.countP (fun s =>
          decide (s < translateIdx (List.insertionSort (· ≤ ·) idxs) i)) := by
  have hperm := List.perm_insertionSort (· ≤ ·) idxs
  have hndS := hperm.nodup_iff.mpr hnd
  have hsorted := (List.sorted_insertionSort (· ≤ ·) idxs).lt_of_le hndS
  have hnm := translateIdx_not_mem _ hsorted i
  have hle := translateIdx_le (List.insertionSort (· ≤ ·) idxs) i
  have hcount := translateIdx_countP _ hsorted i
  have hlen := hperm.length_eq
  have hnl := numCandidates_length idxs nv hnd hbd
  refine ⟨fun hm => hnm (hperm.mem_iff.mpr hm), by omega, ?_⟩
  have hc := hperm.countP_eq (fun s =>
    decide (s < translateIdx (List.insertionSort (· ≤ ·) idxs) i))
  omega

theorem claim_c1_translation_witness :
    List.Nodup [2, 5, 7] ∧ (∀ j ∈ [2, 5, 7], j < 10) ∧
      3 < numCandidates 10 [2, 5, 7] ∧
      translateIdx (List.insertionSort (· ≤ ·) [2, 5, 7]) 3 = 4 ∧
      (translateIdx (List.insertionSort (· ≤ ·) [2, 5, 7]) 3 ∉ [2, 5, 7] ∧
        translateIdx (List.insertionSort (· ≤ ·) [2, 5, 7]) 3 < 10 ∧
        translateIdx (List.insertionSort (· ≤ ·) [2, 5, 7]) 3
          = 3 + List.countP (fun s =>
              decide (s < translateIdx (List.insertionSort (· ≤ ·) [2, 5, 7]) 3))
              [2, 5, 7]) :=
  ⟨by decide, by decide, by decide, by decide,
    claim_c1_translation [2, 5, 7] 10 3 (by decide) (by decide) (by decide)⟩

/-! ### Claim C4: the leaf law -/

/-- C4: whenever the transform yields zero candidate columns at a node/allele
branch, `_find_split` returns with no selected variant and no association
test is invoked (its event trace is empty), and the corresponding branch of
`_create_tree` leaves the tree unchanged — no node is added. -/
theorem claim_c4_leaf_law (tb : TreeBuilder)
    (recurse : HapTree → Variant → Option Haplotype → Nat → BuildRes)
    (tree : HapTree) (parent : Variant) (parentHap : Option Haplotype)
    (parentIdx allele : Nat)
    (h : numCandidates tb.numVariants
      (hapExtend parentHap parent allele).node_indices = 0) :
    tb.find_split (hapExtend parentHap parent allele) = .ok ((none, none), []) ∧
    tb.branch recurse tree parent parentHap parentIdx allele
      = some (.ok (tree, [])) := by
  have h1 := find_split_zero tb _ h
  refine ⟨h1, ?_⟩
  simp [TreeBuilder.branch, h1]

theorem claim_c4_leaf_law_witness :
    numCandidates tbSmall.numVariants
      (hapExtend none ⟨0⟩ 0).node_indices = 0 ∧
    (tbSmall.find_split (hapExtend none ⟨0⟩ 0) = .ok ((none, none), []) ∧
      tbSmall.branch (fun _ _ _ _ => none) ⟨[TNode.root 0]⟩ ⟨0⟩ none 0 0
        = some (.ok (⟨[TNode.root 0]⟩, []))) :=
  ⟨by decide, claim_c4_leaf_law tbSmall (fun _ _ _ _ => none)
    ⟨[TNode.root 0]⟩ ⟨0⟩ none 0 0 (by decide)⟩

/-! ### Claim C5: minimum-p-value selection with first-occurrence ties -/

/-- C5: with at least one tested candidate, the index selected by
`_find_split` attains the minimum p-value over all tested candidates, every
strictly earlier compacted index has a strictly larger p-value (so exact ties
go to the first occurrence, i.e. the lowest original index), and whenever
`_find_split` returns a variant it is precisely the translation of that
argmin index, paired with that minimal p-value. -/
theorem claim_c5_min_selection (tb : TreeBuilder) (hap : Haplotype)
    (f : Nat → ℚ) (hne : p_values tb hap f ≠ []) :
    argmin (p_values tb hap f) < (p_values tb hap f).length ∧
    (∀ j, j < (p_values tb hap f).length →
      (p_values tb hap f).getD (argmin (p_values tb hap f)) 0
        ≤ (p_values tb hap f).getD j 0) ∧
    (∀ j, j < argmin (p_values tb hap f) →
      (p_values tb hap f).getD (argmin (p_values tb hap f)) 0
        < (p_values tb hap f).getD j 0) ∧
    (∀ v r evs, tb.engine hap = .ok f →
      tb.find_split hap = .ok ((some v, r), evs) →
      v = ⟨translateIdx (List.insertionSort (· ≤ ·) hap.node_indices)
          (argmin (p_values tb hap f))⟩ ∧
        r = some ((p_values tb hap f).getD (argmin (p_values tb hap f)) 0)) := by
  refine ⟨argmin_lt_length _ hne, fun j hj => argmin_min _ j hj,
    fun j hj => argmin_first _ j hj, ?_⟩
  intro v r evs hf h
  have hz : numCandidates tb.numVariants hap.node_indices ≠ 0 := by
    intro hc
    apply hne
    have := p_values_length tb hap f
    rw [hc] at this
    exact List.eq_nil_of_length_eq_zero this
  by_cases ht : tb.check_terminate_branch
      ((p_values tb hap f).getD (argmin (p_values tb hap f)) 0)
      (p_values tb hap f).length = true
  · rw [find_split_terminate tb hap f hz hf ht] at h
    simp at h
  · rw [Bool.not_eq_true] at ht
    rw [find_split_select tb hap f hz hf ht] at h
    simp only [Except.ok.injEq, Prod.mk.injEq, Option.some.injEq] at h
    exact ⟨h.1.1.symm, h.1.2.symm⟩

theorem claim_c5_min_selection_witness :
    p_values tbGrow ⟨[(0, 0)]⟩ (fun _ => 0) ≠ [] ∧
    (argmin (p_values tbGrow ⟨[(0, 0)]⟩ (fun _ => 0))
        < (p_values tbGrow ⟨[(0, 0)]⟩ (fun _ => 0)).length ∧
      (∀ j, j < (p_values tbGrow ⟨[(0, 0)]⟩ (fun _ => 0)).length →
        (p_values tbGrow ⟨[(0, 0)]⟩ (fun _ => 0)).getD
            (argmin (p_values tbGrow ⟨[(0, 0)]⟩ (fun _ => 0))) 0
          ≤ (p_values tbGrow ⟨[(0, 0)]⟩ (fun _ => 0)).getD j 0) ∧
      (∀ j, j < argmin (p_values tbGrow ⟨[(0, 0)]⟩ (fun _ => 0)) →
        (p_values tbGrow ⟨[(0, 0)]⟩ (fun _ => 0)).getD
            (argmin (p_values tbGrow ⟨[(0, 0)]⟩ (fun _ => 0))) 0
          < (p_values tbGrow ⟨[(0, 0)]⟩ (fun _ => 0)).getD j 0) ∧
      (∀ v r evs, tbGrow.engine ⟨[(0, 0)]⟩ = .ok (fun _ => 0) →
        tbGrow.find_split ⟨[(0, 0)]⟩ = .ok ((some v, r), evs) →
        v = ⟨translateIdx (List.insertionSort (· ≤ ·)
            (Haplotype.node_indices ⟨[(0, 0)]⟩))
            (argmin (p_values tbGrow ⟨[(0, 0)]⟩ (fun _ => 0)))⟩ ∧
          r = some ((p_values tbGrow ⟨[(0, 0)]⟩ (fun _ => 0)).getD
            (argmin (p_values tbGrow ⟨[(0, 0)]⟩ (fun _ => 0))) 0))) :=
  ⟨by decide, claim_c5_min_selection tbGrow ⟨[(0, 0)]⟩ (fun _ => 0) (by decide)⟩

/-! ### Claim C3: the single-use law -/

/-- C3: calling `run` on a builder whose tree already exists raises the
precondition-violation error and returns the builder unchanged — in
particular the previously built tree is untouched. -/
theorem claim_c3_single_use (tb : TreeBuilder) (root : Nat) (t : HapTree)
    (h : tb.tree = some t) :
    tb.run root = (tb,
      .error "A tree already exists for this TreeBuilder. Please create a new one.") := by
  simp [TreeBuilder.run, TreeBuilder.runFull, h]

theorem claim_c3_single_use_witness :
    tbDone.tree = some ⟨[TNode.root 0]⟩ ∧
    tbDone.run 0 = (tbDone,
      .error "A tree already exists for this TreeBuilder. Please create a new one.") :=
  ⟨rfl, claim_c3_single_use tbDone 0 ⟨[TNode.root 0]⟩ rfl⟩

/-! ### Fuel sufficiency of the embedded recursion -/

theorem hapExtend_indices (ph : Option Haplotype) (p : Variant) (a : Nat) :
    (hapExtend ph p a).node_indices = pendIndices ph p := by
  cases ph <;>
    simp [hapExtend, pendIndices, Haplotype.from_node, Haplotype.append,
      Haplotype.node_indices]

theorem append_node_indices (h : Haplotype) (v : Variant) (a : Nat) :
    (h.append v a).node_indices = h.node_indices ++ [v.idx] := by
  simp [Haplotype.append, Haplotype.node_indices]

/-- With more fuel than remaining candidate variants, the embedded
`_create_tree` never exhausts its fuel: the Python recursion terminates. -/
theorem create_tree_some :
    ∀ (fuel : Nat) (tb : TreeBuilder) (tree : HapTree) (parent : Variant)
      (ph : Option Haplotype) (pidx : Nat),
      (pendIndices ph parent).Nodup →
      (∀ i ∈ pendIndices ph parent, i < tb.numVariants) →
      numCandidates tb.numVariants (pendIndices ph parent) < fuel →
      tb.create_tree fuel tree parent ph pidx ≠ none := by
  intro fuel
  induction fuel with
  | zero => intro tb tree parent ph pidx _ _ hlt; omega
  | succ fuel ih =>
    intro tb tree parent ph pidx hnd hbd hlt
    have hbr : ∀ (tr : HapTree) (allele : Nat),
        tb.branch (tb.create_tree fuel) tr parent ph pidx allele ≠ none := by
      intro tr allele
      have hhap := hapExtend_indices ph parent allele
      unfold TreeBuilder.branch
      cases hfs : tb.find_split (hapExtend ph parent allele) with
      | error e => simp [hfs]
      | ok res =>
        obtain ⟨⟨ov, r⟩, evs⟩ := res
        cases ov with
        | none => simp [hfs]
        | some v =>
          have hfresh := find_split_some tb _ v r evs
            (by rw [hhap]; exact hnd) (by rw [hhap]; exact hbd) hfs
          rw [hhap] at hfresh
          obtain ⟨hvlt, hvnm, hnz⟩ := hfresh
          have hpend2 : pendIndices (some (hapExtend ph parent allele)) v
              = pendIndices ph parent ++ [v.idx] := by
            simp [pendIndices, hhap]
          have hnd2 : (pendIndices (some (hapExtend ph parent allele)) v).Nodup := by
            rw [hpend2, List.nodup_append]
            refine ⟨hnd, by simp, ?_⟩
            intro x hx hxb
            simp at hxb
            subst hxb
            exact hvnm hx
          have hbd2 : ∀ i ∈ pendIndices (some (hapExtend ph parent allele)) v,
              i < tb.numVariants := by
            rw [hpend2]
            intro i hi
            rcases List.mem_append.mp hi with hh | hh
            · exact hbd i hh
            · simp at hh
              subst hh
              exact hvlt
          have hsnoc := numCandidates_snoc tb.numVariants v.idx
            (pendIndices ph parent) hvlt hvnm
          have hlt2 : numCandidates tb.numVariants
              (pendIndices (some (hapExtend ph parent allele)) v) < fuel := by
            rw [hpend2]
            omega
          have hrec := ih tb
            ⟨tr.nodes ++ [TNode.child v.idx pidx allele r]⟩ v
            (some (hapExtend ph parent allele)) tr.nodes.length hnd2 hbd2 hlt2
          simp only [HapTree.add_node]
          cases hcr : tb.create_tree fuel
              ⟨tr.nodes ++ [TNode.child v.idx pidx allele r]⟩ v
              (some (hapExtend ph parent allele)) tr.nodes.length with
          | none => exact absurd hcr hrec
          | some r2 => cases r2 <;> simp [hfs, hcr]
    show tb.create_tree (fuel + 1) tree parent ph pidx ≠ none
    rw [TreeBuilder.create_tree]
    cases hb0 : tb.branch (tb.create_tree fuel) tree parent ph pidx 0 with
    | none => exact absurd hb0 (hbr tree 0)
    | some r0 =>
      cases r0 with
      | error e => simp [hb0]
      | ok res0 =>
        obtain ⟨tree1, ev1⟩ := res0
        cases hb1 : tb.branch (tb.create_tree fuel) tree1 parent ph pidx 1 with
        | none => exact absurd hb1 (hbr tree1 1)
        | some r1 =>
          cases r1 <;> simp [hb0, hb1]

/-! ### Evaluating the example builders -/

theorem branch_leaf (tb : TreeBuilder)
    (recurse : HapTree → Variant → Option Haplotype → Nat → BuildRes)
    (tree : HapTree) (parent : Variant) (ph : Option Haplotype)
    (pidx allele : Nat)
    (h : numCandidates tb.numVariants
      (hapExtend ph parent allele).node_indices = 0) :
    tb.branch recurse tree parent ph pidx allele = some (.ok (tree, [])) := by
  have h1 := find_split_zero tb _ h
  simp [TreeBuilder.branch, h1]

theorem create_tree_leaf (tb : TreeBuilder) (fuel : Nat) (tree : HapTree)
    (parent : Variant) (ph : Option Haplotype) (pidx : Nat)
    (h0 : numCandidates tb.numVariants
      (hapExtend ph parent 0).node_indices = 0)
    (h1 : numCandidates tb.numVariants
      (hapExtend ph parent 1).node_indices = 0) :
    tb.create_tree (fuel + 1) tree parent ph pidx = some (.ok (tree, [])) := by
  simp only [TreeBuilder.create_tree,
    branch_leaf tb (tb.create_tree fuel) tree parent ph pidx 0 h0,
    branch_leaf tb (tb.create_tree fuel) tree parent ph pidx 1 h1,
    List.append_nil]

theorem tbGrow_find_split (a : Nat) :
    tbGrow.find_split ⟨[(0, a)]⟩
      = .ok ((some ⟨1⟩, some 0), [Event.assoc [(0, a)] 1, Event.checkT 1]) := by
  have hz : numCandidates tbGrow.numVariants
      (Haplotype.node_indices ⟨[(0, a)]⟩) ≠ 0 := by
    show numCandidates 2 [0] ≠ 0
    decide
  have hf : tbGrow.engine ⟨[(0, a)]⟩ = .ok (fun _ => 0) := rfl
  have hpv : p_values tbGrow ⟨[(0, a)]⟩ (fun _ => 0) = [0] := rfl
  have h01 : tbGrow.check_terminate_branch 0 1 = false := by
    show decide (tbGrow.pval_thresh / ((1 : Nat) : ℚ) ≤ (0 : ℚ)) = false
    rw [decide_eq_false_iff_not]
    norm_num [tbGrow]
  have ht : tbGrow.check_terminate_branch
      ((p_values tbGrow ⟨[(0, a)]⟩ (fun _ => 0)).getD
        (argmin (p_values tbGrow ⟨[(0, a)]⟩ (fun _ => 0))) 0)
      (p_values tbGrow ⟨[(0, a)]⟩ (fun _ => 0)).length = false := by
    rw [hpv]
    exact h01
  rw [find_split_select tbGrow ⟨[(0, a)]⟩ (fun _ => 0) hz hf ht]
  rfl

theorem tbGrow_branch (a : Nat) (tree : HapTree) (pidx : Nat) :
    tbGrow.branch (tbGrow.create_tree 2) tree ⟨0⟩ none pidx a
      = some (.ok (⟨tree.nodes ++ [TNode.child 1 pidx a (some 0)]⟩,
          [Event.assoc [(0, a)] 1, Event.checkT 1, Event.addNode 1 pidx a])) := by
  have hfs : tbGrow.find_split (hapExtend none ⟨0⟩ a)
      = .ok ((some ⟨1⟩, some 0), [Event.assoc [(0, a)] 1, Event.checkT 1]) :=
    tbGrow_find_split a
  have hrec : tbGrow.create_tree 2
      ⟨tree.nodes ++ [TNode.child 1 pidx a (some 0)]⟩ ⟨1⟩
      (some (hapExtend none ⟨0⟩ a)) tree.nodes.length
      = some (.ok (⟨tree.nodes ++ [TNode.child 1 pidx a (some 0)]⟩, [])) :=
    create_tree_leaf tbGrow 1 _ ⟨1⟩ (some (hapExtend none ⟨0⟩ a))
      tree.nodes.length (by show numCandidates 2 [0, 1] = 0; decide)
      (by show numCandidates 2 [0, 1] = 0; decide)
  simp [TreeBuilder.branch, hfs, HapTree.add_node, hrec]

theorem tbGrow_create_tree :
    tbGrow.create_tree 3 ⟨[TNode.root 0]⟩ ⟨0⟩ none 0
      = some (.ok (tGrow,
          [Event.assoc [(0, 0)] 1, Event.checkT 1, Event.addNode 1 0 0,
           Event.assoc [(0, 1)] 1, Event.checkT 1, Event.addNode 1 0 1])) := by
  have hb0 := tbGrow_branch 0 ⟨[TNode.root 0]⟩ 0
  have hb1 := tbGrow_branch 1 ⟨[TNode.root 0, TNode.child 1 0 0 (some 0)]⟩ 0
  show tbGrow.create_tree (2 + 1) ⟨[TNode.root 0]⟩ ⟨0⟩ none 0 = _
  rw [TreeBuilder.create_tree]
  simp [hb0, hb1, tGrow]

theorem tbGrow_runFull :
    tbGrow.runFull 0
      = (({ tbGrow with tree := some tGrow }, .ok tGrow),
         [Event.assoc [(0, 0)] 1, Event.checkT 1, Event.addNode 1 0 0,
          Event.assoc [(0, 1)] 1, Event.checkT 1, Event.addNode 1 0 1]) := by
  have hct : tbGrow.create_tree (tbGrow.numVariants + 1)
      ⟨[TNode.root 0]⟩ ⟨0⟩ none 0
      = some (.ok (tGrow,
          [Event.assoc [(0, 0)] 1, Event.checkT 1, Event.addNode 1 0 0,
           Event.assoc [(0, 1)] 1, Event.checkT 1, Event.addNode 1 0 1])) :=
    tbGrow_create_tree
  show (match tbGrow.tree with
    | some _ =>
      ((tbGrow,
        Except.error "A tree already exists for this TreeBuilder. Please create a new one."), [])
    | none =>
      if 0 < tbGrow.numVariants then
        match tbGrow.create_tree (tbGrow.numVariants + 1)
            ⟨[TNode.root 0]⟩ ⟨0⟩ none 0 with
        | none => ((tbGrow, Except.error "recursion fuel exhausted"), [])
        | some (Except.error (e, t)) =>
          (({tbGrow with tree := some t}, Except.error e), [])
        | some (Except.ok (t, evs)) =>
          (({tbGrow with tree := some t}, Except.ok t), evs)
      else ((tbGrow, Except.error "IndexError: root variant index out of bounds"), []))
    = _
  rw [hct]
  rfl

theorem tbFail_find_split0 :
    tbFail.find_split ⟨[(0, 0)]⟩
      = .ok ((some ⟨1⟩, some 0), [Event.assoc [(0, 0)] 1, Event.checkT 1]) := by
  have hz : numCandidates tbFail.numVariants
      (Haplotype.node_indices ⟨[(0, 0)]⟩) ≠ 0 := by
    show numCandidates 2 [0] ≠ 0
    decide
  have hf : tbFail.engine ⟨[(0, 0)]⟩ = .ok (fun _ => 0) := rfl
  have hpv : p_values tbFail ⟨[(0, 0)]⟩ (fun _ => 0) = [0] := rfl
  have h01 : tbFail.check_terminate_branch 0 1 = false := by
    show decide (tbFail.pval_thresh / ((1 : Nat) : ℚ) ≤ (0 : ℚ)) = false
    rw [decide_eq_false_iff_not]
    norm_num [tbFail]
  have ht : tbFail.check_terminate_branch
      ((p_values tbFail ⟨[(0, 0)]⟩ (fun _ => 0)).getD
        (argmin (p_values tbFail ⟨[(0, 0)]⟩ (fun _ => 0))) 0)
      (p_values tbFail ⟨[(0, 0)]⟩ (fun _ => 0)).length = false := by
    rw [hpv]
    exact h01
  rw [find_split_select tbFail ⟨[(0, 0)]⟩ (fun _ => 0) hz hf ht]
  rfl

theorem tbFail_find_split1 :
    tbFail.find_split ⟨[(0, 1)]⟩ = .error "singular design" :=
  find_split_engine_error tbFail ⟨[(0, 1)]⟩ "singular design" (by decide) rfl

theorem tbFail_branch0 (tree : HapTree) (pidx : Nat) :
    tbFail.branch (tbFail.create_tree 2) tree ⟨0⟩ none pidx 0
      = some (.ok (⟨tree.nodes ++ [TNode.child 1 pidx 0 (some 0)]⟩,
          [Event.assoc [(0, 0)] 1, Event.checkT 1, Event.addNode 1 pidx 0])) := by
  have hfs : tbFail.find_split (hapExtend none ⟨0⟩ 0)
      = .ok ((some ⟨1⟩, some 0), [Event.assoc [(0, 0)] 1, Event.checkT 1]) :=
    tbFail_find_split0
  have hrec : tbFail.create_tree 2
      ⟨tree.nodes ++ [TNode.child 1 pidx 0 (some 0)]⟩ ⟨1⟩
      (some (hapExtend none ⟨0⟩ 0)) tree.nodes.length
      = some (.ok (⟨tree.nodes ++ [TNode.child 1 pidx 0 (some 0)]⟩, [])) :=
    create_tree_leaf tbFail 1 _ ⟨1⟩ (some (hapExtend none ⟨0⟩ 0))
      tree.nodes.length (by show numCandidates 2 [0, 1] = 0; decide)
      (by show numCandidates 2 [0, 1] = 0; decide)
  simp [TreeBuilder.branch, hfs, HapTree.add_node, hrec]

theorem tbFail_branch1 (tree : HapTree) (pidx : Nat) :
    tbFail.branch (tbFail.create_tree 2) tree ⟨0⟩ none pidx 1
      = some (.error ("singular design", tree)) := by
  have hfs : tbFail.find_split (hapExtend none ⟨0⟩ 1) = .error "singular design" :=
    tbFail_find_split1
  simp [TreeBuilder.branch, hfs]

theorem tbFail_create_tree :
    tbFail.create_tree 3 ⟨[TNode.root 0]⟩ ⟨0⟩ none 0
      = some (.error ("singular design", tFailKept)) := by
  have hb0 := tbFail_branch0 ⟨[TNode.root 0]⟩ 0
  have hb1 := tbFail_branch1 ⟨[TNode.root 0, TNode.child 1 0 0 (some 0)]⟩ 0
  show tbFail.create_tree (2 + 1) ⟨[TNode.root 0]⟩ ⟨0⟩ none 0 = _
  rw [TreeBuilder.create_tree]
  simp [hb0, hb1, tFailKept]

theorem tbFail_runFull :
    tbFail.runFull 0
      = (({ tbFail with tree := some tFailKept }, .error "singular design"), []) := by
  have hct : tbFail.create_tree (tbFail.numVariants + 1)
      ⟨[TNode.root 0]⟩ ⟨0⟩ none 0
      = some (.error ("singular design", tFailKept)) := tbFail_create_tree
  show (match tbFail.tree with
    | some _ =>
      ((tbFail,
        Except.error "A tree already exists for this TreeBuilder. Please create a new one."), [])
    | none =>
      if 0 < tbFail.numVariants then
        match tbFail.create_tree (tbFail.numVariants + 1)
            ⟨[TNode.root 0]⟩ ⟨0⟩ none 0 with
        | none => ((tbFail, Except.error "recursion fuel exhausted"), [])
        | some (Except.error (e, t)) =>
          (({tbFail with tree := some t}, Except.error e), [])
        | some (Except.ok (t, evs)) =>
          (({tbFail with tree := some t}, Except.ok t), evs)
      else ((tbFail, Except.error "IndexError: root variant index out of bounds"), []))
    = _
  rw [hct]
  rfl

/-! ### Claim C9: well-founded recursion -/

/-- C9: (a) whenever `_find_split` selects a variant, appending it to the
haplotype strictly reduces the number of remaining candidate variants (it is
removed from the candidate set of the branch below it); (b) consequently the
recursion started by `run` never exhausts the fuel bound `numVariants + 1`
of the embedding — the build terminates on every input with finitely many
variants. -/
theorem claim_c9_well_founded :
    (∀ (tb : TreeBuilder) (hap : Haplotype) (v : Variant) (r : Option ℚ)
        (evs : List Event) (allele : Nat),
      hap.node_indices.Nodup →
      (∀ i ∈ hap.node_indices, i < tb.numVariants) →
      tb.find_split hap = .ok ((some v, r), evs) →
      numCandidates tb.numVariants (hap.append v allele).node_indices
        < numCandidates tb.numVariants hap.node_indices) ∧
    (∀ (tb : TreeBuilder) (root : Nat), root < tb.numVariants →
      tb.create_tree (tb.numVariants + 1) ⟨[TNode.root root]⟩ ⟨root⟩ none 0
        ≠ none) := by
  constructor
  · intro tb hap v r evs allele hnd hbd hfs
    obtain ⟨hvlt, hvnm, hnz⟩ := find_split_some tb hap v r evs hnd hbd hfs
    rw [append_node_indices]
    have hsnoc := numCandidates_snoc tb.numVariants v.idx hap.node_indices hvlt hvnm
    omega
  · intro tb root hroot
    apply create_tree_some
    · show List.Nodup ([] ++ [root])
      simp
    · intro i hi
      simp [pendIndices] at hi
      omega
    · show numCandidates tb.numVariants ([] ++ [root]) < tb.numVariants + 1
      have hlen := numCandidates_length ([] ++ [root]) tb.numVariants
        (by simp) (by intro i hi; simp at hi; omega)
      omega

theorem claim_c9_well_founded_witness :
    List.Nodup (Haplotype.node_indices ⟨[(0, 0)]⟩) ∧
    (∀ i ∈ Haplotype.node_indices ⟨[(0, 0)]⟩, i < tbGrow.numVariants) ∧
    0 < tbGrow.numVariants ∧
    numCandidates tbGrow.numVariants
        ((Haplotype.append ⟨[(0, 0)]⟩ ⟨1⟩ 0).node_indices)
      < numCandidates tbGrow.numVariants (Haplotype.node_indices ⟨[(0, 0)]⟩) ∧
    tbGrow.create_tree (tbGrow.numVariants + 1) ⟨[TNode.root 0]⟩ ⟨0⟩ none 0
      ≠ none :=
  ⟨by decide, by decide, by decide,
    claim_c9_well_founded.1 tbGrow ⟨[(0, 0)]⟩ ⟨1⟩ (some 0)
      [Event.assoc [(0, 0)] 1, Event.checkT 1] 0 (by decide) (by decide)
      (tbGrow_find_split 0),
    claim_c9_well_founded.2 tbGrow 0 (by decide)⟩

/-! ### Arena invariants of the built tree -/

theorem edgesOf_append (l1 l2 : List TNode) :
    edgesOf (l1 ++ l2) = edgesOf l1 ++ edgesOf l2 := by
  simp [edgesOf]

theorem edgesOf_cons_child (v p a : Nat) (r : Option ℚ) (ns : List TNode) :
    edgesOf (TNode.child v p a r :: ns) = (p, a) :: edgesOf ns := by
  simp [edgesOf, TNode.parentAllele]

theorem nodesOk_append : ∀ (l1 l2 : List TNode) (i : Nat),
    nodesOk i (l1 ++ l2) = (nodesOk i l1 && nodesOk (i + l1.length) l2) := by
  intro l1
  induction l1 with
  | nil => intro l2 i; simp [nodesOk]
  | cons n rest ih =>
    intro l2 i
    simp only [List.cons_append, nodesOk, List.length_cons, List.append_eq]
    rw [ih l2 (i + 1)]
    have harith : i + 1 + rest.length = i + (rest.length + 1) := by omega
    rw [harith, Bool.and_assoc]

theorem nodesOk_parent_lt : ∀ (ns : List TNode) (i : Nat), nodesOk i ns = true →
    ∀ pa ∈ edgesOf ns, pa.1 < i + ns.length := by
  intro ns
  induction ns with
  | nil => intro i _ pa hpa; simp [edgesOf] at hpa
  | cons n rest ih =>
    intro i h pa hpa
    cases n with
    | root v =>
      simp only [nodesOk, TNode.parentAllele, Bool.true_and] at h
      have hmem : pa ∈ edgesOf rest := by
        simpa [edgesOf, TNode.parentAllele] using hpa
      have := ih (i + 1) h pa hmem
      simp only [List.length_cons]
      omega
    | child v p a r =>
      simp only [nodesOk, TNode.parentAllele, Bool.and_eq_true,
        decide_eq_true_eq] at h
      rw [edgesOf_cons_child] at hpa
      simp only [List.length_cons]
      rcases List.mem_cons.mp hpa with rfl | hmem
      · omega
      · have := ih (i + 1) h.2 pa hmem
        omega

/-- One allele branch of `_create_tree` adds a possibly-empty block of new
nodes: at most one child of `(parentIdx, allele)` itself, all other new
nodes hanging strictly below the old arena, every new node's parent index
below its own index, and no duplicated (parent, allele) edge among the new
nodes. -/
theorem branch_inv (tb : TreeBuilder)
    (recurse : HapTree → Variant → Option Haplotype → Nat → BuildRes)
    (hrec : ∀ (tr : HapTree) (p : Variant) (ph2 : Option Haplotype)
        (pi : Nat) (tr2 : HapTree) (evs2 : List Event),
      recurse tr p ph2 pi = some (.ok (tr2, evs2)) →
      pi < tr.nodes.length →
      ∃ ns, tr2.nodes = tr.nodes ++ ns ∧
        (∀ pa ∈ edgesOf ns, pa.1 = pi ∨ tr.nodes.length ≤ pa.1) ∧
        (∀ a, (edgesOf ns).count (pi, a) ≤ 1) ∧
        (edgesOf ns).Nodup ∧
        nodesOk tr.nodes.length ns = true)
    (tree : HapTree) (parent : Variant) (ph : Option Haplotype)
    (pidx allele : Nat) (tree2 : HapTree) (evs : List Event)
    (h : tb.branch recurse tree parent ph pidx allele = some (.ok (tree2, evs)))
    (hpi : pidx < tree.nodes.length) :
    ∃ ns, tree2.nodes = tree.nodes ++ ns ∧
      (∀ pa ∈ edgesOf ns, pa = (pidx, allele) ∨ tree.nodes.length ≤ pa.1) ∧
      ((edgesOf ns).count (pidx, allele) ≤ 1) ∧
      (edgesOf ns).Nodup ∧
      nodesOk tree.nodes.length ns = true := by
  simp only [TreeBuilder.branch] at h
  cases hfs : tb.find_split (hapExtend ph parent allele) with
  | error e => rw [hfs] at h; simp at h
  | ok res =>
    obtain ⟨⟨ov, r⟩, evs0⟩ := res
    rw [hfs] at h
    cases ov with
    | none =>
      simp only [Option.some.injEq, Except.ok.injEq, Prod.mk.injEq] at h
      obtain ⟨h1, h2⟩ := h
      refine ⟨[], by rw [← h1]; simp, ?_, ?_, ?_, ?_⟩
      · intro pa hpa; simp [edgesOf] at hpa
      · simp [edgesOf]
      · simp [edgesOf]
      · simp [nodesOk]
    | some v =>
      simp only [HapTree.add_node] at h
      cases hcr : recurse ⟨tree.nodes ++ [TNode.child v.idx pidx allele r]⟩ v
          (some (hapExtend ph parent allele)) tree.nodes.length with
      | none => rw [hcr] at h; simp at h
      | some r2 =>
        rw [hcr] at h
        cases r2 with
        | error e => simp at h
        | ok res2 =>
          obtain ⟨tree2', evs'⟩ := res2
          simp only [Option.some.injEq, Except.ok.injEq, Prod.mk.injEq] at h
          obtain ⟨h1, h2⟩ := h
          have hlen : tree.nodes.length
              < (HapTree.mk (tree.nodes ++ [TNode.child v.idx pidx allele r])).nodes.length := by
            simp
          obtain ⟨ns', he, hpar, hcount, hnd, hok⟩ :=
            hrec _ v (some (hapExtend ph parent allele)) tree.nodes.length
              tree2' evs' hcr hlen
          simp only [List.length_append, List.length_cons, List.length_nil] at hpar hok
          refine ⟨TNode.child v.idx pidx allele r :: ns', ?_, ?_, ?_, ?_, ?_⟩
          · rw [← h1, he]; simp
          · intro pa hpa
            rw [edgesOf_cons_child] at hpa
            rcases List.mem_cons.mp hpa with rfl | hpa
            · exact Or.inl rfl
            · rcases hpar pa hpa with hh | hh
              · right; omega
              · right; omega
          · rw [edgesOf_cons_child, List.count_cons]
            have hz : (edgesOf ns').count (pidx, allele) = 0 := by
              rw [List.count_eq_zero]
              intro hc
              rcases hpar _ hc with hh | hh
              · simp at hh; omega
              · simp at hh; omega
            simp [hz]
          · rw [edgesOf_cons_child]
            refine List.nodup_cons.mpr ⟨?_, hnd⟩
            intro hc
            rcases hpar _ hc with hh | hh
            · simp at hh; omega
            · simp at hh; omega
          · show nodesOk tree.nodes.length
              (TNode.child v.idx pidx allele r :: ns') = true
            simp only [nodesOk, TNode.parentAllele, Bool.and_eq_true,
              decide_eq_true_eq]
            exact ⟨hpi, by
              have : tree.nodes.length + 1 = tree.nodes.length + (0 + 1) := by omega
              rw [← this] at hok
              exact hok⟩

/-- The block of nodes `_create_tree` adds under a parent: children of
`(parentIdx, 0)` and `(parentIdx, 1)` at most once each, everything else
parented strictly inside the new block, all parent indices below the
respective node's own index, and no duplicated (parent, allele) edge. -/
theorem create_tree_inv : ∀ (fuel : Nat) (tb : TreeBuilder) (tree : HapTree)
    (parent : Variant) (ph : Option Haplotype) (pidx : Nat)
    (tree2 : HapTree) (evs : List Event),
    tb.create_tree fuel tree parent ph pidx = some (.ok (tree2, evs)) →
    pidx < tree.nodes.length →
    ∃ ns, tree2.nodes = tree.nodes ++ ns ∧
      (∀ pa ∈ edgesOf ns, pa.1 = pidx ∨ tree.nodes.length ≤ pa.1) ∧
      (∀ a, (edgesOf ns).count (pidx, a) ≤ 1) ∧
      (edgesOf ns).Nodup ∧
      nodesOk tree.nodes.length ns = true := by
  intro fuel
  induction fuel with
  | zero =>
    intro tb tree parent ph pidx tree2 evs h _
    rw [TreeBuilder.create_tree] at h
    simp at h
  | succ fuel ih =>
    intro tb tree parent ph pidx tree2 evs h hpi
    rw [TreeBuilder.create_tree] at h
    cases hb0 : tb.branch (tb.create_tree fuel) tree parent ph pidx 0 with
    | none => simp [hb0] at h
    | some r0 =>
      cases r0 with
      | error e => simp [hb0] at h
      | ok res0 =>
        obtain ⟨tree1, ev1⟩ := res0
        simp only [hb0] at h
        cases hb1 : tb.branch (tb.create_tree fuel) tree1 parent ph pidx 1 with
        | none => simp [hb1] at h
        | some r1 =>
          cases r1 with
          | error e => simp [hb1] at h
          | ok res1 =>
            obtain ⟨tree2', ev2⟩ := res1
            simp only [hb1, Option.some.injEq, Except.ok.injEq,
              Prod.mk.injEq] at h
            obtain ⟨h1, h2⟩ := h
            have hrec := fun tr p ph2 pi tr2 evs2 hcall hlt =>
              ih tb tr p ph2 pi tr2 evs2 hcall hlt
            obtain ⟨ns0, he0, hpar0, hcnt0, hnd0, hok0⟩ :=
              branch_inv tb (tb.create_tree fuel) hrec tree parent ph pidx 0
                tree1 ev1 hb0 hpi
            have hlen1 : tree1.nodes.length
                = tree.nodes.length + ns0.length := by
              rw [he0, List.length_append]
            have hpi1 : pidx < tree1.nodes.length := by omega
            obtain ⟨ns1, he1, hpar1, hcnt1, hnd1, hok1⟩ :=
              branch_inv tb (tb.create_tree fuel) hrec tree1 parent ph pidx 1
                tree2' ev2 hb1 hpi1
            have hbound0 : ∀ pa ∈ edgesOf ns0,
                pa.1 < tree.nodes.length + ns0.length :=
              nodesOk_parent_lt ns0 tree.nodes.length hok0
            refine ⟨ns0 ++ ns1, ?_, ?_, ?_, ?_, ?_⟩
            · rw [← h1, he1, he0, List.append_assoc]
            · intro pa hpa
              rw [edgesOf_append] at hpa
              rcases List.mem_append.mp hpa with hh | hh
              · rcases hpar0 pa hh with hh2 | hh2
                · left; rw [hh2]
                · right; exact hh2
              · rcases hpar1 pa hh with hh2 | hh2
                · left; rw [hh2]
                · right; omega
            · intro a
              rw [edgesOf_append, List.count_append]
              have hz0 : ∀ b, b ≠ 0 → (edgesOf ns0).count (pidx, b) = 0 := by
                intro b hb
                rw [List.count_eq_zero]
                intro hc
                rcases hpar0 _ hc with hh | hh
                · exact hb (congrArg Prod.snd hh)
                · simp at hh; omega
              have hz1 : ∀ b, b ≠ 1 → (edgesOf ns1).count (pidx, b) = 0 := by
                intro b hb
                rw [List.count_eq_zero]
                intro hc
                rcases hpar1 _ hc with hh | hh
                · exact hb (congrArg Prod.snd hh)
                · simp at hh; omega
              by_cases ha0 : a = 0
              · subst ha0
                have := hcnt0
                have := hz1 0 (by omega)
                omega
              · by_cases ha1 : a = 1
                · subst ha1
                  have := hcnt1
                  have := hz0 1 (by omega)
                  omega
                · have := hz0 a ha0
                  have := hz1 a ha1
                  omega
            · rw [edgesOf_append, List.nodup_append]
              refine ⟨hnd0, hnd1, ?_⟩
              intro pa hpa0 hpa1
              have hb0lt := hbound0 pa hpa0
              rcases hpar0 pa hpa0 with hh | hh
              · rcases hpar1 pa hpa1 with hh2 | hh2
                · rw [hh] at hh2
                  simp at hh2
                · rw [hh] at hh2
                  simp at hh2
                  omega
              · rcases hpar1 pa hpa1 with hh2 | hh2
                · rw [hh2] at hh
                  simp at hh
                  omega
                · omega
            · rw [nodesOk_append, hok0]
              rw [← hlen1]
              rw [hok1]
              rfl

/-! ### Claim C6: the arena invariant of the produced tree -/

/-- C6: every tree `run` returns is a valid rooted arena: every non-root
node's parent index is strictly less than its own index, and no
(parent index, allele) pair is used by two distinct nodes. -/
theorem claim_c6_arena_invariant (tb : TreeBuilder) (root : Nat) (t : HapTree)
    (h : (tb.run root).2 = .ok t) :
    t.parentsOk = true ∧ t.edges.Nodup := by
  unfold TreeBuilder.run TreeBuilder.runFull at h
  cases htree : tb.tree with
  | some t0 => rw [htree] at h; simp at h
  | none =>
    rw [htree] at h
    by_cases hroot : root < tb.numVariants
    · rw [if_pos hroot] at h
      cases hct : tb.create_tree (tb.numVariants + 1) ⟨[TNode.root root]⟩
          ⟨root⟩ none 0 with
      | none => simp [hct] at h
      | some r =>
        cases r with
        | error et =>
          obtain ⟨e, t'⟩ := et
          simp [hct] at h
        | ok res =>
          obtain ⟨t', evs⟩ := res
          simp only [hct] at h
          simp at h
          obtain ⟨ns, he, hpar, hcnt, hnd, hok⟩ :=
            create_tree_inv (tb.numVariants + 1) tb ⟨[TNode.root root]⟩
              ⟨root⟩ none 0 t' evs hct (by simp)
          subst h
          constructor
          · show nodesOk 0 t'.nodes = true
            rw [he, nodesOk_append]
            have h1 : nodesOk 0 [TNode.root root] = true := rfl
            rw [h1]
            simpa using hok
          · show (edgesOf t'.nodes).Nodup
            rw [he, edgesOf_append]
            have h1 : edgesOf [TNode.root root] = [] := rfl
            rw [h1]
            simpa using hnd
    · rw [if_neg hroot] at h
      simp at h

theorem claim_c6_arena_invariant_witness :
    (tbSmall.run 0).2 = Except.ok ⟨[TNode.root 0]⟩ ∧
    ((⟨[TNode.root 0]⟩ : HapTree).parentsOk = true ∧
      (HapTree.edges ⟨[TNode.root 0]⟩).Nodup) :=
  ⟨by decide, claim_c6_arena_invariant tbSmall 0 ⟨[TNode.root 0]⟩ (by decide)⟩

/-! ### Claim C10: the termination check never divides by zero -/

theorem find_split_checkT (tb : TreeBuilder) (hap : Haplotype)
    (res : Option Variant × Option ℚ) (evs : List Event)
    (h : tb.find_split hap = .ok (res, evs)) :
    ∀ n, Event.checkT n ∈ evs → 1 ≤ n := by
  intro n hn2
  by_cases hz : numCandidates tb.numVariants hap.node_indices = 0
  · rw [find_split_zero tb hap hz] at h
    simp only [Except.ok.injEq, Prod.mk.injEq] at h
    rw [← h.2] at hn2
    simp at hn2
  · have hlen := p_values_length tb hap
    cases he : tb.engine hap with
    | error e =>
      rw [find_split_engine_error tb hap e hz he] at h
      simp at h
    | ok f =>
      by_cases ht : tb.check_terminate_branch
          ((p_values tb hap f).getD (argmin (p_values tb hap f)) 0)
          (p_values tb hap f).length = true
      · rw [find_split_terminate tb hap f hz he ht] at h
        simp only [Except.ok.injEq, Prod.mk.injEq] at h
        rw [← h.2] at hn2
        simp only [List.mem_cons, List.mem_singleton] at hn2
        rcases hn2 with hc | hc | hc
        · exact absurd hc (by simp)
        · have : n = (p_values tb hap f).length := by
            injection hc
          rw [this, hlen f]
          omega
        · simp at hc
      · rw [Bool.not_eq_true] at ht
        rw [find_split_select tb hap f hz he ht] at h
        simp only [Except.ok.injEq, Prod.mk.injEq] at h
        rw [← h.2] at hn2
        simp only [List.mem_cons, List.mem_singleton] at hn2
        rcases hn2 with hc | hc | hc
        · exact absurd hc (by simp)
        · have : n = (p_values tb hap f).length := by
            injection hc
          rw [this, hlen f]
          omega
        · simp at hc

theorem branch_checkT (tb : TreeBuilder)
    (recurse : HapTree → Variant → Option Haplotype → Nat → BuildRes)
    (hrec : ∀ (tr : HapTree) (p : Variant) (ph2 : Option Haplotype)
        (pi : Nat) (t2 : HapTree) (evs2 : List Event),
      recurse tr p ph2 pi = some (.ok (t2, evs2)) →
      ∀ n, Event.checkT n ∈ evs2 → 1 ≤ n)
    (tree : HapTree) (parent : Variant) (ph : Option Haplotype)
    (pidx allele : Nat) (tree2 : HapTree) (evs : List Event)
    (h : tb.branch recurse tree parent ph pidx allele = some (.ok (tree2, evs))) :
    ∀ n, Event.checkT n ∈ evs → 1 ≤ n := by
  intro n hn2
  simp only [TreeBuilder.branch] at h
  cases hfs : tb.find_split (hapExtend ph parent allele) with
  | error e => rw [hfs] at h; simp at h
  | ok res =>
    obtain ⟨⟨ov, r⟩, evs0⟩ := res
    rw [hfs] at h
    cases ov with
    | none =>
      simp only [Option.some.injEq, Except.ok.injEq, Prod.mk.injEq] at h
      rw [← h.2] at hn2
      exact find_split_checkT tb _ _ _ hfs n hn2
    | some v =>
      simp only [HapTree.add_node] at h
      cases hcr : recurse ⟨tree.nodes ++ [TNode.child v.idx pidx allele r]⟩ v
          (some (hapExtend ph parent allele)) tree.nodes.length with
      | none => rw [hcr] at h; simp at h
      | some r2 =>
        rw [hcr] at h
        cases r2 with
        | error e => simp at h
        | ok res2 =>
          obtain ⟨t2, evs'⟩ := res2
          simp only [Option.some.injEq, Except.ok.injEq, Prod.mk.injEq] at h
          rw [← h.2] at hn2
          simp only [List.mem_append, List.mem_singleton] at hn2
          rcases hn2 with (hc | hc) | hc
          · exact find_split_checkT tb _ _ _ hfs n hc
          · simp at hc
          · exact hrec _ v (some (hapExtend ph parent allele))
              tree.nodes.length t2 evs' hcr n hc

theorem create_tree_checkT : ∀ (fuel : Nat) (tb : TreeBuilder)
    (tree : HapTree) (parent : Variant) (ph : Option Haplotype) (pidx : Nat)
    (tree2 : HapTree) (evs : List Event),
    tb.create_tree fuel tree parent ph pidx = some (.ok (tree2, evs)) →
    ∀ n, Event.checkT n ∈ evs → 1 ≤ n := by
  intro fuel
  induction fuel with
  | zero =>
    intro tb tree parent ph pidx tree2 evs h
    rw [TreeBuilder.create_tree] at h
    simp at h
  | succ fuel ih =>
    intro tb tree parent ph pidx tree2 evs h n hn2
    rw [TreeBuilder.create_tree] at h
    cases hb0 : tb.branch (tb.create_tree fuel) tree parent ph pidx 0 with
    | none => simp [hb0] at h
    | some r0 =>
      cases r0 with
      | error e => simp [hb0] at h
      | ok res0 =>
        obtain ⟨tree1, ev1⟩ := res0
        simp only [hb0] at h
        cases hb1 : tb.branch (tb.create_tree fuel) tree1 parent ph pidx 1 with
        | none => simp [hb1] at h
        | some r1 =>
          cases r1 with
          | error e => simp [hb1] at h
          | ok res1 =>
            obtain ⟨tree2', ev2⟩ := res1
            simp only [hb1, Option.some.injEq, Except.ok.injEq,
              Prod.mk.injEq] at h
            rw [← h.2] at hn2
            have hrec := fun tr p ph2 pi t2 evs2 hcall =>
              ih tb tr p ph2 pi t2 evs2 hcall
            rcases List.mem_append.mp hn2 with hc | hc
            · exact branch_checkT tb (tb.create_tree fuel) hrec tree parent
                ph pidx 0 tree1 ev1 hb0 n hc
            · exact branch_checkT tb (tb.create_tree fuel) hrec tree1 parent
                ph pidx 1 tree2' ev2 hb1 n hc

/-- C10: every `check_terminate_branch` invocation recorded in the ghost
trace of a run carries `num_tests >= 1` — `_find_split` returns early when
the transformed matrix has zero columns and otherwise passes the length of
the non-empty p-value array, so the division
`significance_threshold / num_tests` never divides by zero. -/
theorem claim_c10_division_guard (tb : TreeBuilder) (root n : Nat)
    (h : Event.checkT n ∈ (tb.runFull root).2) : 1 ≤ n := by
  unfold TreeBuilder.runFull at h
  cases htree : tb.tree with
  | some t0 => rw [htree] at h; simp at h
  | none =>
    rw [htree] at h
    by_cases hroot : root < tb.numVariants
    · rw [if_pos hroot] at h
      cases hct : tb.create_tree (tb.numVariants + 1) ⟨[TNode.root root]⟩
          ⟨root⟩ none 0 with
      | none => simp [hct] at h
      | some r =>
        cases r with
        | error et => obtain ⟨e, t'⟩ := et; simp [hct] at h
        | ok res =>
          obtain ⟨t', evs⟩ := res
          simp only [hct] at h
          exact create_tree_checkT (tb.numVariants + 1) tb ⟨[TNode.root root]⟩
            ⟨root⟩ none 0 t' evs hct n h
    · rw [if_neg hroot] at h
      simp at h

theorem claim_c10_division_guard_witness :
    Event.checkT 1 ∈ (tbGrow.runFull 0).2 ∧ 1 ≤ 1 := by
  have hm : Event.checkT 1 ∈ (tbGrow.runFull 0).2 := by
    rw [tbGrow_runFull]
    decide
  exact ⟨hm, claim_c10_division_guard tbGrow 0 1 hm⟩

/-! ### Claim C7: determinism -/

/-- C7: two builders with identical genotype/phenotype-derived engines,
identical configuration and identical state produce identical results and
identical ghost traces — in particular the same sequence of `add_node`
calls with the same arguments. -/
theorem claim_c7_determinism (tb1 tb2 : TreeBuilder) (root : Nat)
    (h1 : tb1.numVariants = tb2.numVariants)
    (h2 : tb1.engine = tb2.engine)
    (h3 : tb1.pval_thresh = tb2.pval_thresh)
    (h4 : tb1.tree = tb2.tree) :
    tb1.runFull root = tb2.runFull root := by
  obtain ⟨n1, e1, p1, t1⟩ := tb1
  obtain ⟨n2, e2, p2, t2⟩ := tb2
  have g1 : n1 = n2 := h1
  have g2 : e1 = e2 := h2
  have g3 : p1 = p2 := h3
  have g4 : t1 = t2 := h4
  subst g1
  subst g2
  subst g3
  subst g4
  rfl

theorem claim_c7_determinism_witness :
    tbGrow.numVariants = tbGrow.numVariants ∧
    tbGrow.engine = tbGrow.engine ∧
    tbGrow.pval_thresh = tbGrow.pval_thresh ∧
    tbGrow.tree = tbGrow.tree ∧
    tbGrow.runFull 0 = tbGrow.runFull 0 :=
  ⟨rfl, rfl, rfl, rfl, claim_c7_determinism tbGrow tbGrow 0 rfl rfl rfl rfl⟩

/-! ### Claim C8: what `run` exposes after a mid-build engine failure -/

/-- C8 fails as stated: on `tbFail` the engine failure on the allele-1
branch propagates out of `run` as an error, yet the builder — whose tree
attribute was `None` before the call — afterwards exposes the partially
constructed two-node tree through its tree attribute. -/
theorem claim_c8_counterexample :
    tbFail.tree = none ∧
    (tbFail.run 0).2 = Except.error "singular design" ∧
    (tbFail.run 0).1.tree = some tFailKept ∧
    tFailKept.nodes.length = 2 := by
  refine ⟨rfl, ?_, ?_, rfl⟩
  · show (tbFail.runFull 0).1.2 = Except.error "singular design"
    rw [tbFail_runFull]
  · show (tbFail.runFull 0).1.1.tree = some tFailKept
    rw [tbFail_runFull]

/-- C8 (amended): `run` always stores the tree it was building on the
builder: on success the completed tree (which it also returns), and when an
engine failure propagates out mid-build, the error surfaces to the caller
but the builder retains — and thereby exposes — the partially constructed
tree in its tree attribute. -/
theorem claim_c8_tree_retained (tb : TreeBuilder) (root : Nat)
    (h1 : tb.tree = none) (h2 : root < tb.numVariants) :
    (tb.run root).1.tree ≠ none ∧
    (∀ t, (tb.run root).2 = .ok t → (tb.run root).1.tree = some t) := by
  unfold TreeBuilder.run TreeBuilder.runFull
  simp only [h1, if_pos h2]
  cases hct : tb.create_tree (tb.numVariants + 1) ⟨[TNode.root root]⟩
      ⟨root⟩ none 0 with
  | none =>
    have hne := create_tree_some (tb.numVariants + 1) tb ⟨[TNode.root root]⟩
      ⟨root⟩ none 0
      (by show List.Nodup ([] ++ [root]); simp)
      (by intro i hi; simp [pendIndices] at hi; omega)
      (by
        show numCandidates tb.numVariants ([] ++ [root]) < tb.numVariants + 1
        have hlen := numCandidates_length ([] ++ [root]) tb.numVariants
          (by simp) (by intro i hi; simp at hi; omega)
        omega)
    exact absurd hct hne
  | some r =>
    cases r with
    | error et =>
      obtain ⟨e, t'⟩ := et
      simp only [hct]
      constructor
      · simp
      · intro t hc
        simp at hc
    | ok res =>
      obtain ⟨t', evs⟩ := res
      simp only [hct]
      constructor
      · simp
      · intro t hc
        simp at hc
        rw [hc]

theorem claim_c8_tree_retained_witness :
    tbFail.tree = none ∧ 0 < tbFail.numVariants ∧
    ((tbFail.run 0).1.tree ≠ none ∧
      (∀ t, (tbFail.run 0).2 = .ok t → (tbFail.run 0).1.tree = some t)) :=
  ⟨rfl, by decide, claim_c8_tree_retained tbFail 0 rfl (by decide)⟩
